import Mathlib

/-!
Verification development for the rs-calliber measurement pipeline.

The definitions below are shallow embeddings of the Rust sources:
`src/freq.rs` (spectral analyzer), `src/wave.rs` and `src/chirp.rs`
(excitation signals), `src/audio.rs` (device selection and the capture
thread).  `f32` values are modelled as real numbers, the forward FFT as
the discrete Fourier transform it computes, and a Rust panic
(`unwrap` on `None`) as an `Option.none` result.
-/

set_option autoImplicit false

open Real

namespace Calliber

/-! ### Spectral analyzer, from src/freq.rs -/

/-- The interchangeable FFT backends of `src/freq.rs` (the commented-out
Avx and Sse variants are omitted there as well). -/
inductive Planner where
  | FftPlanner
  | FftPlannerNeon
  | FftPlannerScalar

/-- Bin `k` of the forward DFT that `rustfft`'s `plan_fft_forward`
computes: `X[k] = sum_j x[j] * exp(-2*pi*i*j*k/N)`, unnormalized. -/
noncomputable def dftBin (x : List ℂ) (k : ℕ) : ℂ :=
  ∑ j in Finset.range x.length, x.getD j 0 * Complex.exp (-(2 * (π : ℂ) * Complex.I) * j * k / x.length)

/-- The full forward DFT output buffer (`fft.process` writes this into
`fft_input` in place). -/
noncomputable def dftList (x : List ℂ) : List ℂ :=
  (List.range x.length).map (fun k => dftBin x k)

/-- The `match planner` in `freq_of_resonance`: every backend plans the
same forward transform of length `num_samples`. -/
noncomputable def planFFT (planner : Option Planner) (input : List ℂ) : List ℂ :=
  match planner with
  | some Planner.FftPlanner => dftList input
  | some Planner.FftPlannerNeon => dftList input
  | some Planner.FftPlannerScalar => dftList input
  | none => dftList input

/-- One step of the fold underlying Rust's `Iterator::max_by` over
`enumerate()`: `cmp::max_by(acc, new)` keeps the accumulator only when
the comparison is `Greater`, so on ties the later element wins.
`bi`/`bv` are the best index and value so far, `j` the index of the
head of the remaining list. -/
noncomputable def argmaxLastAux : ℕ → ℝ → ℕ → List ℝ → ℕ × ℝ
  | bi, bv, _, [] => (bi, bv)
  | bi, bv, j, y :: ys =>
    if bv > y then argmaxLastAux bi bv (j + 1) ys else argmaxLastAux j y (j + 1) ys

/-- `magnitudes.iter().enumerate().max_by(|(_, a), (_, b)| a.partial_cmp(b).unwrap())`
from `src/freq.rs` lines 49-53, restricted to real (non-NaN) values where
`partial_cmp` is total; `none` is the empty-iterator case whose `.unwrap()`
panics. -/
noncomputable def argmaxLast : List ℝ → Option ℕ
  | [] => none
  | x :: xs => some (argmaxLastAux 0 x 1 xs).1

/-- `freq_of_resonance` from `src/freq.rs` lines 15-59.  The `println!`
calls are side-effect free on the result and omitted.  A `none` result
models the `unwrap` panic on the empty `max_by` (which happens exactly
when `num_samples / 2 = 0`). -/
noncomputable def freq_of_resonance (samples : List ℝ) (sample_rate : ℝ)
    (planner : Option Planner) : Option ℝ :=
  let num_samples := samples.length
  let fft_input : List ℂ := samples.map (fun x : ℝ => (x : ℂ))
  let fft_output := planFFT planner fft_input
  let magnitudes : List ℝ := (fft_output.take (num_samples / 2)).map (fun c => Complex.abs c)
  match argmaxLast magnitudes with
  | none => none
  | some max_index => some ((max_index : ℝ) * (sample_rate / (num_samples : ℝ)))

/-- The magnitude of bin `j` of the forward DFT of a real sample buffer;
this is the value `magnitudes[j]` that the analyzer's peak search ranks. -/
noncomputable def binMagnitude (samples : List ℝ) (j : ℕ) : ℝ :=
  Complex.abs (dftBin (samples.map (fun x : ℝ => (x : ℂ))) j)

/-! ### Fixed-frequency excitation signal, from src/wave.rs -/

structure Wave where
  samples : List ℝ
  sample_rate : ℝ
  duration : ℝ
  index : ℕ
  frequency : ℝ

/-- The `sample_clock` variable of `Wave::build_sine_wave`: starts at 0,
increments by 1 after each generated sample, and is reset to 0 once it
exceeds `sample_rate`. -/
noncomputable def sampleClock (sample_rate : ℝ) : ℕ → ℝ
  | 0 => 0
  | i + 1 =>
    if sampleClock sample_rate i + 1 > sample_rate then 0 else sampleClock sample_rate i + 1

/-- `Wave::build_sine_wave`: `(sample_rate * duration) as usize` samples
(`as usize` truncates toward zero and saturates at 0 for negative input,
modelled by `Int.toNat ∘ Int.floor`), sample `i` being
`sin(2*pi*frequency * sample_clock_i / sample_rate)`. -/
noncomputable def buildSineWave (sample_rate frequency duration : ℝ) : List ℝ :=
  (List.range (⌊sample_rate * duration⌋).toNat).map
    (fun i => Real.sin (2 * π * frequency * sampleClock sample_rate i / sample_rate))

/-- `Wave::new` from `src/wave.rs`. -/
noncomputable def Wave.new (sample_rate frequency duration : ℝ) : Wave :=
  { samples := buildSineWave sample_rate frequency duration
    sample_rate := sample_rate
    duration := duration
    index := 0
    frequency := frequency }

/-- `<Wave as Iterator>::next`, returning the yielded item and the
updated iterator state. -/
def Wave.next (w : Wave) : Option ℝ × Wave :=
  if w.index < w.samples.length then
    (some (w.samples.getD w.index 0), { w with index := w.index + 1 })
  else (none, w)

/-- `<Wave as Source>::current_frame_len` computes `samples.len() - index`
(usize subtraction, which would underflow if `index > samples.len()`). -/
def Wave.current_frame_len (w : Wave) : ℕ := w.samples.length - w.index

/-! ### Linear-sweep excitation signal, from src/chirp.rs -/

structure Chirp where
  start_freq : ℝ
  end_freq : ℝ
  duration : ℝ
  sample_rate : ℝ
  index : ℕ
  samples : List ℝ

/-- Modelled from the spec: `Chirp::new` is called from `main.rs` with
`(sample_rate, start_freq, end_freq, duration)` but its definition is not
among the sources under `src/`; per spec sections 3 and 4.1 it produces
`round(sample_rate * duration)` samples, sample `i` being
`sin(2*pi*f(t)*t)` with `t = i/sample_rate` and instantaneous frequency
`f(t) = start_freq + (end_freq - start_freq) * t / duration`. -/
noncomputable def Chirp.new (sample_rate start_freq end_freq duration : ℝ) : Chirp :=
  { start_freq := start_freq
    end_freq := end_freq
    duration := duration
    sample_rate := sample_rate
    index := 0
    samples := (List.range (round (sample_rate * duration)).toNat).map
      (fun i : ℕ =>
        Real.sin (2 * π *
          (start_freq + (end_freq - start_freq) * ((i : ℝ) / sample_rate) / duration) *
          ((i : ℝ) / sample_rate))) }

/-- The spec's linearly interpolated instantaneous frequency of a chirp
at time `t`. -/
noncomputable def Chirp.instFreq (c : Chirp) (t : ℝ) : ℝ :=
  c.start_freq + (c.end_freq - c.start_freq) * t / c.duration

/-- `<Chirp as Iterator>::next` from `src/chirp.rs` lines 45-57. -/
def Chirp.next (c : Chirp) : Option ℝ × Chirp :=
  if c.index < c.samples.length then
    (some (c.samples.getD c.index 0), { c with index := c.index + 1 })
  else (none, c)

/-- `<Chirp as Source>::current_frame_len`. -/
def Chirp.current_frame_len (c : Chirp) : ℕ := c.samples.length - c.index

/-! ### Device selection, from src/audio.rs -/

structure Device where
  name : String

structure Host where
  defaultInput : Option Device
  inputs : List Device

/-- `select_input_device` from `src/audio.rs` lines 29-40.  The Rust
function returns a bare `cpal::Device`; both failure paths go through
`.unwrap()`, so a missing default device or an unmatched name panics.
`none` models that panic. -/
def select_input_device (host : Host) (device_name : String) : Option Device :=
  if device_name = "Default" then host.defaultInput
  else host.inputs.find? (fun d => d.name == device_name)

/-! ### The capture thread, from src/audio.rs lines 55-91 -/

inductive CaptureEvent where
  | play
  | pause
  | snapshot (buf : List ℝ)
  | send (result : Option ℝ)

/-- Whether a capture event is the one-shot channel send. -/
def CaptureEvent.isSend : CaptureEvent → Bool
  | CaptureEvent.send _ => true
  | _ => false

/-- The sequence of externally visible actions of `capture_input`.
`obs i` is the value the `i`-th `is_playing.load` returns (load 0 is the
early-return check, loads 1, 2, ... are the `while` conditions), and
`buf t` is the shared buffer's contents at abstract time `t`, where load
`i` happens at time `i`.  If the first `false` is observed at load `k`,
the thread pauses the stream at time `k+1`, clones the buffer at time
`k+2`, analyzes that snapshot and sends the result; if `k = 0` it
returns before opening the stream and produces no events. -/
noncomputable def captureTrace (obs : ℕ → Bool) (buf : ℕ → List ℝ) (sample_rate : ℝ)
    (h : ∃ i, obs i = false) : List CaptureEvent :=
  let k := Nat.find h
  if k = 0 then []
  else
    List.replicate (k - 1) CaptureEvent.play ++
      [CaptureEvent.pause, CaptureEvent.snapshot (buf (k + 2)),
       CaptureEvent.send (freq_of_resonance (buf (k + 2)) sample_rate none)]

end Calliber

namespace Calliber

/-! ### Correctness of the last-occurrence argmax -/

lemma argmaxLastAux_spec (ys : List ℝ) : ∀ (bi : ℕ) (bv : ℝ) (j : ℕ),
    bv ≤ (argmaxLastAux bi bv j ys).2 ∧
    (∀ m, m < ys.length → ys.getD m 0 ≤ (argmaxLastAux bi bv j ys).2) ∧
    (((argmaxLastAux bi bv j ys).1 = bi ∧ (argmaxLastAux bi bv j ys).2 = bv ∧
        ∀ m, m < ys.length → ys.getD m 0 < bv) ∨
      (∃ m, m < ys.length ∧ (argmaxLastAux bi bv j ys).1 = j + m ∧
        (argmaxLastAux bi bv j ys).2 = ys.getD m 0 ∧
        ∀ m', m < m' → m' < ys.length → ys.getD m' 0 < (argmaxLastAux bi bv j ys).2)) := by
  induction ys with
  | nil =>
    intro bi bv j
    refine ⟨le_refl _, ?_, Or.inl ⟨rfl, rfl, ?_⟩⟩ <;> simp [argmaxLastAux]
  | cons y ys ih =>
    intro bi bv j
    by_cases hby : bv > y
    · have hrw : argmaxLastAux bi bv j (y :: ys) = argmaxLastAux bi bv (j + 1) ys := by
        simp [argmaxLastAux, hby]
      obtain ⟨h1, h2, h3⟩ := ih bi bv (j + 1)
      rw [hrw]
      refine ⟨h1, ?_, ?_⟩
      · intro m hm
        cases m with
        | zero => simpa using le_trans (le_of_lt hby) h1
        | succ m => simpa using h2 m (by simpa using hm)
      · rcases h3 with ⟨ha, hb, hc⟩ | ⟨m, hm, ha, hb, hc⟩
        · refine Or.inl ⟨ha, hb, ?_⟩
          intro m hm
          cases m with
          | zero => simpa using hby
          | succ m => simpa using hc m (by simpa using hm)
        · refine Or.inr ⟨m + 1, by simpa using hm, by omega, by simpa using hb, ?_⟩
          intro m' hmm hml
          cases m' with
          | zero => omega
          | succ m' => simpa using hc m' (by omega) (by simpa using hml)
    · have hrw : argmaxLastAux bi bv j (y :: ys) = argmaxLastAux j y (j + 1) ys := by
        simp [argmaxLastAux, hby]
      obtain ⟨h1, h2, h3⟩ := ih j y (j + 1)
      rw [hrw]
      have hbvy : bv ≤ y := le_of_not_lt hby
      refine ⟨le_trans hbvy h1, ?_, ?_⟩
      · intro m hm
        cases m with
        | zero => simpa using h1
        | succ m => simpa using h2 m (by simpa using hm)
      · rcases h3 with ⟨ha, hb, hc⟩ | ⟨m, hm, ha, hb, hc⟩
        · refine Or.inr ⟨0, by simp, by omega, by simp [hb], ?_⟩
          intro m' hm0 hml
          cases m' with
          | zero => omega
          | succ m' => simpa [hb] using hc m' (by simpa using hml)
        · refine Or.inr ⟨m + 1, by simpa using hm, by omega, by simpa using hb, ?_⟩
          intro m' hmm hml
          cases m' with
          | zero => omega
          | succ m' => simpa using hc m' (by omega) (by simpa using hml)

/-- The `max_by` fold returns the index of the maximum value, choosing
the last maximal index on ties: the result `c` is in range, bounds every
element from above, and every element strictly after `c` is strictly
below the maximum. -/
lemma argmaxLast_spec (l : List ℝ) (h : l ≠ []) :
    ∃ c, argmaxLast l = some c ∧ c < l.length ∧
      (∀ j, j < l.length → l.getD j 0 ≤ l.getD c 0) ∧
      (∀ j, c < j → j < l.length → l.getD j 0 < l.getD c 0) := by
  cases l with
  | nil => exact absurd rfl h
  | cons x xs =>
    obtain ⟨h1, h2, h3⟩ := argmaxLastAux_spec xs 0 x 1
    rcases h3 with ⟨ha, hb, hc⟩ | ⟨m, hm, ha, hb, hc⟩
    · refine ⟨0, by simp [argmaxLast, ha], by simp, ?_, ?_⟩
      · intro j hj
        cases j with
        | zero => simp
        | succ j => simpa using le_of_lt (hc j (by simpa using hj))
      · intro j hj hjl
        cases j with
        | zero => omega
        | succ j => simpa using hc j (by simpa using hjl)
    · refine ⟨1 + m, by simp [argmaxLast, ha], by simp; omega, ?_, ?_⟩
      · have hval : (x :: xs).getD (1 + m) 0 = (argmaxLastAux 0 x 1 xs).2 := by
          rw [hb]
          have : 1 + m = m + 1 := by omega
          rw [this]
          simp
        intro j hj
        rw [hval]
        cases j with
        | zero => simpa using h1
        | succ j => simpa using h2 j (by simpa using hj)
      · have hval : (x :: xs).getD (1 + m) 0 = (argmaxLastAux 0 x 1 xs).2 := by
          rw [hb]
          have : 1 + m = m + 1 := by omega
          rw [this]
          simp
        intro j hj hjl
        rw [hval]
        cases j with
        | zero => omega
        | succ j => exact by simpa using hc j (by omega) (by simpa using hjl)

end Calliber

namespace Calliber

/-! ### Plumbing: the analyzer pipeline in terms of bin magnitudes -/

lemma planFFT_eq (p : Option Planner) (x : List ℂ) : planFFT p x = dftList x := by
  cases p with
  | none => rfl
  | some pl => cases pl <;> rfl

/-- The `magnitudes` vector of `freq_of_resonance`: absolute values of
the first `len / 2` DFT bins. -/
noncomputable def magsOf (samples : List ℝ) : List ℝ :=
  ((dftList (samples.map (fun x : ℝ => (x : ℂ)))).take (samples.length / 2)).map
    (fun c => Complex.abs c)

lemma freq_of_resonance_eq (samples : List ℝ) (r : ℝ) (p : Option Planner) :
    freq_of_resonance samples r p =
      match argmaxLast (magsOf samples) with
      | none => none
      | some max_index => some ((max_index : ℝ) * (r / (samples.length : ℝ))) := by
  simp only [freq_of_resonance, planFFT_eq, magsOf, List.length_map]

lemma dftList_length (x : List ℂ) : (dftList x).length = x.length := by
  simp [dftList]

lemma magsOf_length (samples : List ℝ) : (magsOf samples).length = samples.length / 2 := by
  simp only [magsOf, List.length_map, List.length_take, dftList_length]
  omega

lemma magsOf_getD (samples : List ℝ) (j : ℕ) (hj : j < samples.length / 2) :
    (magsOf samples).getD j 0 = binMagnitude samples j := by
  have hlen : j < (magsOf samples).length := by rw [magsOf_length]; exact hj
  have hj2 : j < samples.length := lt_of_lt_of_le hj (Nat.div_le_self _ _)
  rw [magsOf] at hlen ⊢
  rw [List.getD_eq_getElem _ _ hlen]
  simp only [List.getElem_map, List.getElem_take, dftList, binMagnitude, List.getElem_range]

end Calliber

namespace Calliber

/-! ### Claims C1-C3: the spectral analyzer -/

/-- C2: calling `freq_of_resonance` with an empty sample buffer does not
return a frequency; the `.unwrap()` on the empty `max_by` fails (modelled
as `none`) for every sample rate and backend choice. -/
theorem c2_empty_buffer_fails (sample_rate : ℝ) (planner : Option Planner) :
    freq_of_resonance [] sample_rate planner = none := by
  rw [freq_of_resonance_eq]
  simp [magsOf, dftList, argmaxLast]

/-- C1 counterexample: the claim quantifies over every non-empty buffer,
but for the singleton buffer `[1]` the peak search ranges over
`floor(1/2) = 0` bins, so `max_by` is empty and its `.unwrap()` panics:
no value `k * (r / N)` is returned at all. -/
theorem c1_counterexample :
    ¬ ∃ k : ℕ, freq_of_resonance [1] 1 none = some ((k : ℝ) * ((1 : ℝ) / 1)) := by
  have h : freq_of_resonance [1] 1 none = none := by
    rw [freq_of_resonance_eq]
    simp [magsOf, argmaxLast]
  rintro ⟨k, hk⟩
  rw [h] at hk
  exact Option.noConfusion hk

/-- C1 (amended to buffers of length at least 2): `freq_of_resonance`
returns `k * (sample_rate / N)` where `k` is an index of maximum DFT
magnitude among only the first `floor(N/2)` bins; upper bins are excluded
from the peak search. -/
theorem c1_peak_frequency_formula (samples : List ℝ) (r : ℝ) (p : Option Planner)
    (h2 : 2 ≤ samples.length) :
    ∃ k : ℕ, freq_of_resonance samples r p = some ((k : ℝ) * (r / (samples.length : ℝ))) ∧
      k < samples.length / 2 ∧
      ∀ j, j < samples.length / 2 → binMagnitude samples j ≤ binMagnitude samples k := by
  have hne : magsOf samples ≠ [] := by
    intro h
    have hl := magsOf_length samples
    rw [h] at hl
    simp at hl
    omega
  obtain ⟨c, hsome, hlt, hub, _⟩ := argmaxLast_spec (magsOf samples) hne
  rw [magsOf_length] at hlt
  refine ⟨c, ?_, hlt, ?_⟩
  · rw [freq_of_resonance_eq, hsome]
  · intro j hj
    have hle := hub j (by rw [magsOf_length]; exact hj)
    rwa [magsOf_getD _ _ hj, magsOf_getD _ _ hlt] at hle

/-- C1 witness: the amended theorem applied to the concrete two-sample
buffer `[1, 0]` at sample rate 1. -/
theorem c1_witness :
    2 ≤ ([1, 0] : List ℝ).length ∧
      ∃ k : ℕ, freq_of_resonance [1, 0] 1 none =
          some ((k : ℝ) * ((1 : ℝ) / ((([1, 0] : List ℝ).length : ℕ) : ℝ))) ∧
        k < ([1, 0] : List ℝ).length / 2 ∧
        ∀ j, j < ([1, 0] : List ℝ).length / 2 →
          binMagnitude [1, 0] j ≤ binMagnitude [1, 0] k :=
  ⟨by simp, c1_peak_frequency_formula [1, 0] 1 none (by simp)⟩

/-- C3 counterexample: for the impulse buffer `[1, 0, 0, 0]` every DFT
bin has magnitude 1, so bins 0 and 1 tie for the maximum; the code
returns bin 1 (frequency `1 * (4/4)`), not the first occurrence bin 0
(frequency `0 * (4/4)`), refuting the stable-first-argmax claim. -/
theorem c3_counterexample :
    binMagnitude [1, 0, 0, 0] 0 = binMagnitude [1, 0, 0, 0] 1 ∧
      freq_of_resonance [1, 0, 0, 0] 4 none = some ((1 : ℝ) * ((4 : ℝ) / 4)) ∧
      (1 : ℝ) * ((4 : ℝ) / 4) ≠ (0 : ℝ) * ((4 : ℝ) / 4) := by
  have hmap : (([1, 0, 0, 0] : List ℝ).map (fun x : ℝ => (x : ℂ))) = [1, 0, 0, 0] := by
    norm_num
  have hbin : ∀ m : ℕ, dftBin [(1 : ℂ), 0, 0, 0] m = 1 := by
    intro m
    norm_num [dftBin, Finset.sum_range_succ]
  have hmags : magsOf [1, 0, 0, 0] = [1, 1] := by
    rw [magsOf, hmap]
    have hr : List.range ([(1 : ℂ), 0, 0, 0].length) = [0, 1, 2, 3] := rfl
    rw [dftList, hr]
    norm_num [hbin]
  refine ⟨?_, ?_, by norm_num⟩
  · rw [binMagnitude, binMagnitude, hmap, hbin, hbin]
  · rw [freq_of_resonance_eq, hmags]
    norm_num [argmaxLast, argmaxLastAux]

/-- C3 (amended): on ties among the first `floor(N/2)` magnitude bins the
selected index is the last occurrence in ascending index order (Rust's
`Iterator::max_by` keeps the later of two equal elements); over the reals
the comparator `partial_cmp(..).unwrap()` is total, while an actual `f32`
NaN magnitude would make that `unwrap` panic rather than be skipped. -/
theorem c3_tie_break_last_occurrence (samples : List ℝ) (r : ℝ) (p : Option Planner)
    (h2 : 2 ≤ samples.length) :
    ∃ k : ℕ, freq_of_resonance samples r p = some ((k : ℝ) * (r / (samples.length : ℝ))) ∧
      k < samples.length / 2 ∧
      (∀ j, j < samples.length / 2 → binMagnitude samples j ≤ binMagnitude samples k) ∧
      (∀ j, j < samples.length / 2 → binMagnitude samples j = binMagnitude samples k → j ≤ k) := by
  have hne : magsOf samples ≠ [] := by
    intro h
    have hl := magsOf_length samples
    rw [h] at hl
    simp at hl
    omega
  obtain ⟨c, hsome, hlt, hub, hafter⟩ := argmaxLast_spec (magsOf samples) hne
  rw [magsOf_length] at hlt
  refine ⟨c, ?_, hlt, ?_, ?_⟩
  · rw [freq_of_resonance_eq, hsome]
  · intro j hj
    have hle := hub j (by rw [magsOf_length]; exact hj)
    rwa [magsOf_getD _ _ hj, magsOf_getD _ _ hlt] at hle
  · intro j hj heq
    by_contra hjk
    push_neg at hjk
    have hstrict := hafter j hjk (by rw [magsOf_length]; exact hj)
    rw [magsOf_getD _ _ hj, magsOf_getD _ _ hlt] at hstrict
    exact lt_irrefl _ (heq ▸ hstrict)

/-- C3 witness: the amended theorem applied to the concrete buffer
`[0, 1]` at sample rate 2. -/
theorem c3_witness :
    2 ≤ ([0, 1] : List ℝ).length ∧
      ∃ k : ℕ, freq_of_resonance [0, 1] 2 none =
          some ((k : ℝ) * ((2 : ℝ) / ((([0, 1] : List ℝ).length : ℕ) : ℝ))) ∧
        k < ([0, 1] : List ℝ).length / 2 ∧
        (∀ j, j < ([0, 1] : List ℝ).length / 2 →
          binMagnitude [0, 1] j ≤ binMagnitude [0, 1] k) ∧
        (∀ j, j < ([0, 1] : List ℝ).length / 2 →
          binMagnitude [0, 1] j = binMagnitude [0, 1] k → j ≤ k) :=
  ⟨by simp, c3_tie_break_last_occurrence [0, 1] 2 none (by simp)⟩

end Calliber

namespace Calliber

/-! ### The DFT of a pure sine -/

/-- A pure sine of frequency `f` sampled at rate `r` for `N` samples. -/
noncomputable def pureSineSamples (f r : ℝ) (N : ℕ) : List ℝ :=
  (List.range N).map (fun n : ℕ => Real.sin (2 * π * f * n / r))

/-- Geometric sum of the `N`-th roots of unity:
`sum_{j<N} exp(2*pi*i*a*j/N)` is `N` when `N` divides `a` and `0`
otherwise. -/
lemma rootSum (N : ℕ) (hN : 0 < N) (a : ℤ) :
    ∑ j in Finset.range N, Complex.exp (2 * (π : ℂ) * Complex.I * a * j / N) =
      if (N : ℤ) ∣ a then (N : ℂ) else 0 := by
  have hNC : (N : ℂ) ≠ 0 := Nat.cast_ne_zero.mpr hN.ne'
  have hterm : ∀ j : ℕ, Complex.exp (2 * (π : ℂ) * Complex.I * a * j / N) =
      Complex.exp (2 * (π : ℂ) * Complex.I * a / N) ^ j := by
    intro j
    rw [← Complex.exp_nat_mul]
    congr 1
    ring
  by_cases hdvd : (N : ℤ) ∣ a
  · rw [if_pos hdvd]
    obtain ⟨t, ht⟩ := hdvd
    have hc1 : Complex.exp (2 * (π : ℂ) * Complex.I * a / N) = 1 := by
      have harg : 2 * (π : ℂ) * Complex.I * a / N = t * (2 * π * Complex.I) := by
        rw [ht]
        push_cast
        field_simp
        ring
      rw [harg, Complex.exp_int_mul_two_pi_mul_I]
    simp [hterm, hc1]
  · rw [if_neg hdvd]
    have hcN : Complex.exp (2 * (π : ℂ) * Complex.I * a / N) ^ N = 1 := by
      rw [← Complex.exp_nat_mul]
      have harg : (N : ℂ) * (2 * π * Complex.I * a / N) = a * (2 * π * Complex.I) := by
        field_simp
        ring
      rw [harg, Complex.exp_int_mul_two_pi_mul_I]
    have hc1 : Complex.exp (2 * (π : ℂ) * Complex.I * a / N) ≠ 1 := by
      intro h1
      rw [Complex.exp_eq_one_iff] at h1
      obtain ⟨n, hn⟩ := h1
      apply hdvd
      refine ⟨n, ?_⟩
      have h2pi : (2 : ℂ) * π * Complex.I ≠ 0 := by
        simp [Real.pi_ne_zero, Complex.I_ne_zero, Complex.ofReal_ne_zero]
      have h4 : 2 * (π : ℂ) * Complex.I * a = n * (2 * π * Complex.I) * N := by
        rw [div_eq_iff hNC] at hn
        exact hn
      have h5 : 2 * (π : ℂ) * Complex.I * a = 2 * π * Complex.I * (n * N) := by
        rw [h4]
        ring
      have h6 : (a : ℂ) = (n : ℂ) * N := mul_left_cancel₀ h2pi h5
      have h7 : (a : ℤ) = n * N := by exact_mod_cast h6
      rw [h7]
      ring
    simp only [hterm]
    rw [geom_sum_eq hc1, hcN]
    simp

end Calliber

namespace Calliber

/-- Bins of the DFT of the pure sine `sin(2*pi*k*n/N)` with `0 < k` and
`k` below the Nyquist bin: all bins in the first half of the spectrum
vanish except bin `k` itself, which is `-i*N/2`. -/
lemma dft_sine (N k m : ℕ) (hk0 : 0 < k) (h2k : 2 * k < N) (h2m : 2 * m < N) :
    dftBin
        (((List.range N).map (fun n : ℕ => Real.sin (2 * π * k * n / N))).map
          (fun x : ℝ => (x : ℂ))) m
      = if m = k then -Complex.I * N / 2 else 0 := by
  have hN : 0 < N := by omega
  have hNC : (N : ℂ) ≠ 0 := Nat.cast_ne_zero.mpr hN.ne'
  set x : List ℂ :=
    ((List.range N).map (fun n : ℕ => Real.sin (2 * π * k * n / N))).map (fun x : ℝ => (x : ℂ))
    with hxdef
  have hxlen : x.length = N := by simp [hxdef]
  have hget : ∀ j, j < N → x.getD j 0 = ((Real.sin (2 * π * k * j / N) : ℝ) : ℂ) := by
    intro j hj
    rw [hxdef, List.getD_eq_getElem _ _ (by simpa using hj)]
    simp [List.getElem_map, List.getElem_range]
  simp only [dftBin]
  rw [hxlen]
  have hsplit : ∀ j ∈ Finset.range N,
      x.getD j 0 * Complex.exp (-(2 * (π : ℂ) * Complex.I) * j * m / N) =
        Complex.I / 2 *
          (Complex.exp (2 * (π : ℂ) * Complex.I * ((-((k : ℤ) + (m : ℤ)) : ℤ) : ℂ) * j / N) -
           Complex.exp (2 * (π : ℂ) * Complex.I * (((k : ℤ) - (m : ℤ) : ℤ) : ℂ) * j / N)) := by
    intro j hj
    rw [hget j (Finset.mem_range.mp hj), Complex.ofReal_sin]
    simp only [Complex.sin]
    rw [show (2 * (π : ℂ) * Complex.I * ((-((k : ℤ) + (m : ℤ)) : ℤ) : ℂ) * j / N) =
        -((2 * π * (k : ℝ) * j / N : ℝ) : ℂ) * Complex.I +
          -(2 * (π : ℂ) * Complex.I) * j * m / N by
      push_cast
      ring]
    rw [show (2 * (π : ℂ) * Complex.I * (((k : ℤ) - (m : ℤ) : ℤ) : ℂ) * j / N) =
        ((2 * π * (k : ℝ) * j / N : ℝ) : ℂ) * Complex.I +
          -(2 * (π : ℂ) * Complex.I) * j * m / N by
      push_cast
      ring]
    rw [Complex.exp_add, Complex.exp_add]
    ring
  rw [Finset.sum_congr rfl hsplit, ← Finset.mul_sum, Finset.sum_sub_distrib,
    rootSum N hN (-((k : ℤ) + (m : ℤ))), rootSum N hN ((k : ℤ) - (m : ℤ))]
  have hnd1 : ¬ (N : ℤ) ∣ (-((k : ℤ) + (m : ℤ))) := by
    rw [Int.dvd_neg]
    intro hdv
    have hle := Int.le_of_dvd (by omega) hdv
    omega
  rw [if_neg hnd1]
  by_cases hmk : m = k
  · subst hmk
    rw [if_pos (show (N : ℤ) ∣ (m : ℤ) - (m : ℤ) by simp), if_pos rfl]
    ring
  · have hnd2 : ¬ (N : ℤ) ∣ ((k : ℤ) - (m : ℤ)) := by
      intro hdv
      obtain ⟨t, ht⟩ := hdv
      have hNpos : (0 : ℤ) < (N : ℤ) := by exact_mod_cast hN
      have hub : (N : ℤ) * t < N * 1 := by
        rw [mul_one, ← ht]
        omega
      have hlb : (N : ℤ) * (-1) < N * t := by
        rw [← ht, show (N : ℤ) * (-1) = -(N : ℤ) by ring]
        omega
      have ht1 : t < 1 := lt_of_mul_lt_mul_left hub (le_of_lt hNpos)
      have ht2 : -1 < t := lt_of_mul_lt_mul_left hlb (le_of_lt hNpos)
      have ht0 : t = 0 := by omega
      rw [ht0, mul_zero] at ht
      exact hmk (by omega)
    rw [if_neg hnd2, if_neg hmk]
    ring

end Calliber

namespace Calliber

lemma pureSineSamples_exact (f r : ℝ) (N k : ℕ) (hN : N ≠ 0) (hr : r ≠ 0)
    (hf : f = (k : ℝ) * (r / N)) :
    pureSineSamples f r N = (List.range N).map (fun n : ℕ => Real.sin (2 * π * k * n / N)) := by
  unfold pureSineSamples
  apply List.map_congr_left
  intro n _
  rw [hf]
  congr 1
  have hNR : (N : ℝ) ≠ 0 := Nat.cast_ne_zero.mpr hN
  field_simp
  ring

/-- C4 (amended): the analyzer-generator round trip holds for every pure
sine whose frequency is an exact multiple `k * (r/N)` of the bin
resolution with `0 < k < floor(N/2)` (strictly between DC and the Nyquist
bin): the analyzer recovers exactly `f`.  (At `k = 0`, at or above the
Nyquist bin, and for aliased frequencies the result can be arbitrary, and
no within-one-bin bound holds for non-exact multiples; see the
counterexample.) -/
theorem c4_exact_multiple_roundtrip (N k : ℕ) (f r : ℝ) (p : Option Planner)
    (hk0 : 0 < k) (hk : k < N / 2) (hr : 0 < r) (hf : f = (k : ℝ) * (r / N)) :
    freq_of_resonance (pureSineSamples f r N) r p = some f := by
  have hN : 0 < N := by omega
  have h2k : 2 * k < N := by omega
  have hlen : (pureSineSamples f r N).length = N := by simp [pureSineSamples]
  have hsine := pureSineSamples_exact f r N k hN.ne' hr.ne' hf
  have hmag : ∀ j, j < N / 2 → binMagnitude (pureSineSamples f r N) j =
      if j = k then (N : ℝ) / 2 else 0 := by
    intro j hj
    have h2j : 2 * j < N := by omega
    rw [binMagnitude, hsine, dft_sine N k j hk0 h2k h2j]
    by_cases hjk : j = k
    · rw [if_pos hjk, if_pos hjk]
      rw [show -Complex.I * (N : ℂ) / 2 = (((N : ℝ) / 2 : ℝ) : ℂ) * (-Complex.I) by
        push_cast
        ring]
      rw [map_mul, Complex.abs_ofReal]
      simp [abs_of_nonneg]
      positivity
    · rw [if_neg hjk, if_neg hjk, map_zero]
  have hmagsne : magsOf (pureSineSamples f r N) ≠ [] := by
    intro h
    have hl := magsOf_length (pureSineSamples f r N)
    rw [h, hlen] at hl
    simp at hl
    omega
  obtain ⟨c, hsome, hclt, hub, _⟩ := argmaxLast_spec _ hmagsne
  have hclen : c < N / 2 := by
    rw [magsOf_length, hlen] at hclt
    exact hclt
  have hck : c = k := by
    by_contra hck
    have hkpos : k < (magsOf (pureSineSamples f r N)).length := by
      rw [magsOf_length, hlen]
      exact hk
    have hle := hub k hkpos
    rw [magsOf_getD _ _ (by rw [hlen]; exact hk), magsOf_getD _ _ (by rw [hlen]; exact hclen)]
      at hle
    rw [hmag k hk, hmag c hclen, if_pos rfl, if_neg hck] at hle
    have hNpos : (0 : ℝ) < (N : ℝ) / 2 := by
      have : (0 : ℝ) < (N : ℝ) := Nat.cast_pos.mpr hN
      linarith
    linarith
  rw [freq_of_resonance_eq, hsome, hlen, hck, hf]

end Calliber

namespace Calliber

/-- C4 counterexample.  First part: `f = 0` is an exact multiple of the
bin resolution `4/4`, yet the analyzer returns `1`, not `0` — on the
all-zero sine every magnitude ties at 0 and the last bin of the scanned
half wins.  Second part: `f = 1.7` at `r = 2`, `N = 2` is a non-exact
multiple (above Nyquist), and the analyzer returns `0`, which is farther
than one bin (`r/N = 1`) from `1.7`. -/
theorem c4_counterexample :
    ((0 : ℝ) = ((0 : ℕ) : ℝ) * ((4 : ℝ) / ((4 : ℕ) : ℝ)) ∧
      freq_of_resonance (pureSineSamples 0 4 4) 4 none ≠ some 0) ∧
    ((¬ ∃ k : ℕ, (1.7 : ℝ) = (k : ℝ) * ((2 : ℝ) / ((2 : ℕ) : ℝ))) ∧
      freq_of_resonance (pureSineSamples 1.7 2 2) 2 none = some 0 ∧
      ¬ |(0 : ℝ) - 1.7| ≤ (2 : ℝ) / ((2 : ℕ) : ℝ)) := by
  constructor
  · have hsamp : pureSineSamples 0 4 4 = [0, 0, 0, 0] := by
      have hr4 : List.range 4 = [0, 1, 2, 3] := rfl
      rw [pureSineSamples, hr4]
      norm_num
    have hmap : (([0, 0, 0, 0] : List ℝ).map (fun x : ℝ => (x : ℂ))) = [0, 0, 0, 0] := by
      norm_num
    have hbin : ∀ m : ℕ, dftBin [(0 : ℂ), 0, 0, 0] m = 0 := by
      intro m
      norm_num [dftBin, Finset.sum_range_succ]
    have hmags : magsOf [(0 : ℝ), 0, 0, 0] = [0, 0] := by
      rw [magsOf, hmap]
      have hrr : List.range ([(0 : ℂ), 0, 0, 0].length) = [0, 1, 2, 3] := rfl
      rw [dftList, hrr]
      norm_num [hbin]
    have hres : freq_of_resonance (pureSineSamples 0 4 4) 4 none = some 1 := by
      rw [hsamp, freq_of_resonance_eq, hmags]
      norm_num [argmaxLast, argmaxLastAux]
    refine ⟨by norm_num, ?_⟩
    rw [hres]
    norm_num
  · refine ⟨?_, ?_, ?_⟩
    · rintro ⟨k, hk⟩
      have hk2 : (1.7 : ℝ) = (k : ℝ) := by
        rw [hk]
        norm_num
      rcases Nat.lt_or_ge k 2 with h | h
      · interval_cases k <;> norm_num at hk2
      · have hge : (2 : ℝ) ≤ (k : ℝ) := by exact_mod_cast h
        rw [← hk2] at hge
        norm_num at hge
    · have hlen2 : (pureSineSamples 1.7 2 2).length = 2 := by simp [pureSineSamples]
      have hxlen2 : ((pureSineSamples 1.7 2 2).map (fun x : ℝ => (x : ℂ))).length = 2 := by
        simp [pureSineSamples]
      have hmags2 : magsOf (pureSineSamples 1.7 2 2) =
          [Complex.abs (dftBin ((pureSineSamples 1.7 2 2).map (fun x : ℝ => (x : ℂ))) 0)] := by
        simp only [magsOf, dftList]
        rw [hxlen2, hlen2]
        rfl
      rw [freq_of_resonance_eq, hmags2, hlen2]
      norm_num [argmaxLast, argmaxLastAux]
    · rw [show |(0 : ℝ) - 1.7| = 1.7 by
        rw [abs_of_nonpos (by norm_num)]
        norm_num]
      norm_num

/-- C4 witness: the amended round-trip theorem at the spec's example
scenario, a 440 Hz sine sampled at 44100 Hz for 1 second (44100 samples,
bin index 440), recovered exactly. -/
theorem c4_witness :
    (0 < 440 ∧ 440 < 44100 / 2 ∧ (0 : ℝ) < 44100 ∧
        (440 : ℝ) = ((440 : ℕ) : ℝ) * ((44100 : ℝ) / ((44100 : ℕ) : ℝ))) ∧
      freq_of_resonance (pureSineSamples 440 44100 44100) 44100 none = some 440 :=
  ⟨⟨by norm_num, by norm_num, by norm_num, by norm_num⟩,
    c4_exact_multiple_roundtrip 44100 440 440 44100 none (by norm_num) (by norm_num)
      (by norm_num) (by norm_num)⟩

end Calliber

namespace Calliber

/-! ### Claims C5-C6: the Wave generator -/

lemma wave_length (r f d : ℝ) : (Wave.new r f d).samples.length = (⌊r * d⌋).toNat := by
  simp [Wave.new, buildSineWave]

/-- C5 counterexample: at sample rate 4 and duration 0.9 the generator
produces `(4 * 0.9) as usize = 3` samples (truncation), not
`round(4 * 0.9) = 4` as claimed. -/
theorem c5_counterexample :
    ((Wave.new 4 1 0.9).samples.length : ℤ) ≠ round ((4 : ℝ) * 0.9) := by
  have h1 : (Wave.new 4 1 (0.9 : ℝ)).samples.length = 3 := by
    rw [wave_length]
    have hf : ⌊(4 : ℝ) * 0.9⌋ = 3 := by
      rw [Int.floor_eq_iff]; norm_num
    rw [hf]
    rfl
  have h2 : round ((4 : ℝ) * 0.9) = 4 := by
    rw [round_eq]
    rw [Int.floor_eq_iff]; norm_num
  rw [h1, h2]
  norm_num

/-- C5 (amended): for positive sample rate and duration the generator
produces exactly `(sample_rate * duration) as usize` samples, i.e. the
truncation `floor(sample_rate * duration)` rather than the claimed
rounding; every sample lies in `[-1, 1]`; and the construction is
deterministic (identical inputs give identical output). -/
theorem c5_sample_count_and_range (r f d : ℝ) (hr : 0 < r) (hd : 0 < d) :
    (Wave.new r f d).samples.length = (⌊r * d⌋).toNat ∧
      (∀ x ∈ (Wave.new r f d).samples, -1 ≤ x ∧ x ≤ 1) ∧
      (∀ r2 f2 d2 : ℝ, r2 = r → f2 = f → d2 = d → Wave.new r2 f2 d2 = Wave.new r f d) := by
  refine ⟨wave_length r f d, ?_, ?_⟩
  · intro x hx
    simp only [Wave.new, buildSineWave] at hx
    rcases List.mem_map.mp hx with ⟨i, _, rfl⟩
    exact ⟨Real.neg_one_le_sin _, Real.sin_le_one _⟩
  · intro r2 f2 d2 h1 h2 h3
    rw [h1, h2, h3]

/-- C5 witness: the amended theorem at sample rate 4, frequency 1,
duration 2. -/
theorem c5_witness :
    (Wave.new 4 1 2).samples.length = (⌊(4 : ℝ) * 2⌋).toNat ∧
      (∀ x ∈ (Wave.new 4 1 2).samples, -1 ≤ x ∧ x ≤ 1) ∧
      (∀ r2 f2 d2 : ℝ, r2 = 4 → f2 = 1 → d2 = 2 → Wave.new r2 f2 d2 = Wave.new 4 1 2) :=
  c5_sample_count_and_range 4 1 2 (by norm_num) (by norm_num)

/-- The `sample_clock` of `Wave::build_sine_wave` wraps with period
`floor(sample_rate) + 1`: it counts `0, 1, ..., floor(r)` and only then
resets (the reset condition is `clock + 1 > r`, not `>= r`). -/
lemma sampleClock_mod (r : ℝ) (hr : 0 < r) (i : ℕ) :
    sampleClock r i = ((i % ((⌊r⌋).toNat + 1) : ℕ) : ℝ) := by
  have hfl0 : 0 ≤ ⌊r⌋ := Int.floor_nonneg.mpr (le_of_lt hr)
  induction i with
  | zero => simp [sampleClock]
  | succ i ih =>
    have hP : 0 < (⌊r⌋).toNat + 1 := Nat.succ_pos _
    have hmodlt : i % ((⌊r⌋).toNat + 1) < (⌊r⌋).toNat + 1 := Nat.mod_lt _ hP
    simp only [sampleClock]
    rw [ih]
    by_cases hcond : ((i % ((⌊r⌋).toNat + 1) : ℕ) : ℝ) + 1 > r
    · rw [if_pos hcond]
      have hcond2 : ⌊r⌋ < ((i % ((⌊r⌋).toNat + 1) : ℕ) : ℤ) + 1 :=
        Int.floor_lt.mpr (by exact_mod_cast hcond)
      have hmax : i % ((⌊r⌋).toNat + 1) = (⌊r⌋).toNat := by omega
      have hnext : (i + 1) % ((⌊r⌋).toNat + 1) = 0 := by
        rw [← Nat.mod_add_mod, hmax, Nat.mod_self]
      rw [hnext]
      simp
    · rw [if_neg hcond]
      have hcond2 : ((i % ((⌊r⌋).toNat + 1) : ℕ) : ℤ) + 1 ≤ ⌊r⌋ :=
        Int.le_floor.mpr (by exact_mod_cast not_lt.mp hcond)
      have hlt : i % ((⌊r⌋).toNat + 1) + 1 < (⌊r⌋).toNat + 1 := by omega
      have hnext : (i + 1) % ((⌊r⌋).toNat + 1) = i % ((⌊r⌋).toNat + 1) + 1 := by
        rw [← Nat.mod_add_mod]
        exact Nat.mod_eq_of_lt hlt
      rw [hnext]
      push_cast
      ring

/-- C6 (amended): for a positive sample rate, sample `i` of the wave is
`sin(2*pi*frequency*(c_i/sample_rate))` where the clock `c_i` is
`i mod (floor(sample_rate)+1)` — not the claimed `t = i/sample_rate`,
from which it deviates once `i` exceeds `floor(sample_rate)`. -/
theorem c6_wave_sample_formula (r f d : ℝ) (hr : 0 < r) (i : ℕ)
    (hi : i < (Wave.new r f d).samples.length) :
    (Wave.new r f d).samples.getD i 0 =
      Real.sin (2 * π * f * ((i % ((⌊r⌋).toNat + 1) : ℕ) : ℝ) / r) := by
  simp only [Wave.new, buildSineWave] at hi ⊢
  rw [List.getD_eq_getElem _ _ hi]
  simp only [List.getElem_map, List.getElem_range]
  rw [sampleClock_mod r hr]

/-- C6 witness: the amended formula at sample rate 4, frequency 1,
duration 2, index 5 (where the clock has wrapped back to 0). -/
theorem c6_witness :
    5 < (Wave.new 4 1 2).samples.length ∧
      (Wave.new 4 1 2).samples.getD 5 0 =
        Real.sin (2 * π * 1 * ((5 % ((⌊(4 : ℝ)⌋).toNat + 1) : ℕ) : ℝ) / 4) := by
  have hlen : (Wave.new 4 1 2).samples.length = 8 := by
    rw [wave_length]
    rw [show ⌊(4 : ℝ) * 2⌋ = 8 by rw [Int.floor_eq_iff]; norm_num]
    rfl
  have h5 : 5 < (Wave.new 4 1 2).samples.length := by rw [hlen]; norm_num
  exact ⟨h5, c6_wave_sample_formula 4 1 2 (by norm_num) 5 h5⟩

/-- C6 counterexample: at sample rate 4, frequency 1, duration 2 the
sample at index 5 is `sin 0 = 0` (the clock has wrapped), while the
claimed value `sin(2*pi*1*(5/4)) = sin(5*pi/2)` is 1. -/
theorem c6_counterexample :
    (Wave.new 4 1 2).samples.getD 5 0 ≠ Real.sin (2 * π * 1 * ((5 : ℝ) / 4)) := by
  have hfl4 : ⌊(4 : ℝ)⌋ = 4 := by
    rw [Int.floor_eq_iff]; norm_num
  have hlen : (Wave.new 4 1 2).samples.length = 8 := by
    rw [wave_length]
    rw [show ⌊(4 : ℝ) * 2⌋ = 8 by rw [Int.floor_eq_iff]; norm_num]
    rfl
  have hL : (Wave.new 4 1 2).samples.getD 5 0 = 0 := by
    rw [c6_wave_sample_formula 4 1 2 (by norm_num) 5 (by rw [hlen]; norm_num)]
    rw [hfl4]
    norm_num [show Int.toNat 4 = 4 from rfl]
  have hR : Real.sin (2 * π * 1 * ((5 : ℝ) / 4)) = 1 := by
    rw [show 2 * π * 1 * ((5 : ℝ) / 4) = π / 2 + 2 * π by ring]
    rw [Real.sin_add_two_pi, Real.sin_pi_div_two]
  rw [hL, hR]
  norm_num

end Calliber

namespace Calliber

/-! ### Claim C7: the Chirp generator (modelled from the spec) -/

/-- C7: the Chirp has `round(sample_rate * duration)` samples, sample `i`
is `sin(2*pi*f(t)*t)` with `t = i/sample_rate` and linearly interpolated
instantaneous frequency; the instantaneous frequency is `start_freq` at
`t = 0` and exactly `end_freq` at `t = duration`.  (`Chirp::new` is
modelled from the spec, since only its callers appear under `src/`.) -/
theorem c7_chirp_formula (r s e d : ℝ) (hr : 0 < r) (hd : 0 < d) :
    (Chirp.new r s e d).samples.length = (round (r * d)).toNat ∧
      (∀ i, i < (Chirp.new r s e d).samples.length →
        (Chirp.new r s e d).samples.getD i 0 =
          Real.sin (2 * π * (Chirp.new r s e d).instFreq ((i : ℝ) / r) * ((i : ℝ) / r))) ∧
      (Chirp.new r s e d).instFreq 0 = s ∧
      (Chirp.new r s e d).instFreq d = e := by
  refine ⟨by simp [Chirp.new], ?_, ?_, ?_⟩
  · intro i hi
    simp only [Chirp.new] at hi ⊢
    rw [List.getD_eq_getElem _ _ hi]
    simp only [List.getElem_map, List.getElem_range, Chirp.instFreq]
  · simp [Chirp.instFreq, Chirp.new]
  · simp only [Chirp.instFreq, Chirp.new]
    field_simp

/-- C7 witness: the spec's example scenario, a chirp from 100 Hz to
1000 Hz over 2 s at 48000 Hz: 96000 samples, instantaneous frequency 100
at index 0 and 1000 at `t = duration`. -/
theorem c7_witness :
    (round ((48000 : ℝ) * 2)).toNat = 96000 ∧
      ((Chirp.new 48000 100 1000 2).samples.length = (round ((48000 : ℝ) * 2)).toNat ∧
        (∀ i, i < (Chirp.new 48000 100 1000 2).samples.length →
          (Chirp.new 48000 100 1000 2).samples.getD i 0 =
            Real.sin (2 * π * (Chirp.new 48000 100 1000 2).instFreq ((i : ℝ) / 48000) *
              ((i : ℝ) / 48000))) ∧
        (Chirp.new 48000 100 1000 2).instFreq 0 = 100 ∧
        (Chirp.new 48000 100 1000 2).instFreq 2 = 1000) :=
  ⟨by
    rw [show round ((48000 : ℝ) * 2) = 96000 by
      rw [round_eq]
      rw [Int.floor_eq_iff]; norm_num]
    rfl,
    c7_chirp_formula 48000 100 1000 2 (by norm_num) (by norm_num)⟩

/-! ### Claim C8: ordering of the capture thread's actions -/

/-- C8: once the capture loop observes the stop flag false (at poll `k`,
after having seen it true at every earlier poll), the trace is exactly:
the plays, then pause, then one buffer snapshot taken strictly after the
stop observation, then one send of the analyzer's result on that very
snapshot — and the trace contains exactly one send. -/
theorem c8_capture_order (obs : ℕ → Bool) (buf : ℕ → List ℝ) (r : ℝ)
    (h : ∃ i, obs i = false) (h0 : obs 0 = true) :
    ∃ k, 0 < k ∧ obs k = false ∧ (∀ j, j < k → obs j = true) ∧
      captureTrace obs buf r h =
        List.replicate (k - 1) CaptureEvent.play ++
          [CaptureEvent.pause, CaptureEvent.snapshot (buf (k + 2)),
           CaptureEvent.send (freq_of_resonance (buf (k + 2)) r none)] ∧
      ((captureTrace obs buf r h).filter (fun ev => ev.isSend)).length = 1 := by
  have hkf : obs (Nat.find h) = false := Nat.find_spec h
  have hkmin : ∀ j, j < Nat.find h → obs j = true := by
    intro j hj
    have hne := Nat.find_min h hj
    simpa using hne
  have hk0 : Nat.find h ≠ 0 := by
    intro hzero
    rw [hzero, h0] at hkf
    exact Bool.noConfusion hkf
  have htr : captureTrace obs buf r h =
      List.replicate (Nat.find h - 1) CaptureEvent.play ++
        [CaptureEvent.pause, CaptureEvent.snapshot (buf (Nat.find h + 2)),
         CaptureEvent.send (freq_of_resonance (buf (Nat.find h + 2)) r none)] := by
    simp only [captureTrace]
    rw [if_neg hk0]
  refine ⟨Nat.find h, Nat.pos_of_ne_zero hk0, hkf, hkmin, htr, ?_⟩
  rw [htr, List.filter_append]
  have hrep : (List.replicate (Nat.find h - 1) CaptureEvent.play).filter
      (fun ev => ev.isSend) = [] := by
    induction (Nat.find h - 1) with
    | zero => rfl
    | succ n ih => simpa [List.replicate_succ, CaptureEvent.isSend] using ih
  rw [hrep]
  rfl

/-- C8 witness: the ordering theorem on a concrete observation sequence
(true at polls 0 and 1, false at poll 2) and a constant buffer. -/
theorem c8_witness :
    ∃ k, 0 < k ∧ (fun i : ℕ => decide (i < 2)) k = false ∧
      (∀ j, j < k → (fun i : ℕ => decide (i < 2)) j = true) ∧
      captureTrace (fun i : ℕ => decide (i < 2)) (fun _ : ℕ => ([1, 0, 0, 0] : List ℝ)) 4
          ⟨2, by decide⟩ =
        List.replicate (k - 1) CaptureEvent.play ++
          [CaptureEvent.pause,
           CaptureEvent.snapshot ((fun _ : ℕ => ([1, 0, 0, 0] : List ℝ)) (k + 2)),
           CaptureEvent.send
             (freq_of_resonance ((fun _ : ℕ => ([1, 0, 0, 0] : List ℝ)) (k + 2)) 4 none)] ∧
      ((captureTrace (fun i : ℕ => decide (i < 2)) (fun _ : ℕ => ([1, 0, 0, 0] : List ℝ)) 4
          ⟨2, by decide⟩).filter (fun ev => ev.isSend)).length = 1 :=
  c8_capture_order (fun i : ℕ => decide (i < 2)) (fun _ : ℕ => ([1, 0, 0, 0] : List ℝ)) 4
    ⟨2, by decide⟩ (by decide)

end Calliber

namespace Calliber

/-! ### Claim C9: device-name resolution -/

/-- C9 counterexample: with a host whose only input device is named
"Built-in", resolving the name "USB" produces no device: the Rust
function's `.unwrap()` on this `None` panics (its return type
`cpal::Device` has no error channel), so the failure terminates the
thread instead of reaching the caller as a typed result. -/
theorem c9_counterexample :
    select_input_device
        { defaultInput := some { name := "Built-in" }, inputs := [{ name := "Built-in" }] }
        "USB" = none := by
  rfl

/-- C9 (amended): resolving the reserved name "Default" yields the
host's default input device; any other name is matched by exact string
equality against the enumerated devices (first match).  When no device
matches, the lookup yields no device and the surrounding `.unwrap()`
panics — the error is not returned to the caller as a typed result. -/
theorem c9_device_resolution (host : Host) (name : String) (hn : name ≠ "Default") :
    select_input_device host "Default" = host.defaultInput ∧
      (∀ dev, select_input_device host name = some dev →
        dev.name = name ∧ dev ∈ host.inputs) ∧
      (select_input_device host name = none ↔ ∀ dev ∈ host.inputs, dev.name ≠ name) := by
  have hsel : select_input_device host name =
      host.inputs.find? (fun d => d.name == name) := by
    rw [select_input_device, if_neg hn]
  refine ⟨?_, ?_, ?_⟩
  · rw [select_input_device, if_pos rfl]
  · intro dev hdev
    rw [hsel] at hdev
    refine ⟨?_, List.mem_of_find?_eq_some hdev⟩
    have hp := List.find?_some hdev
    simpa using hp
  · rw [hsel, List.find?_eq_none]
    constructor
    · intro hall dev hdev
      have := hall dev hdev
      simpa using this
    · intro hall dev hdev
      simpa using hall dev hdev

/-- C9 witness: the resolution theorem on a concrete host with default
device "d0" and one enumerated input named "mic1". -/
theorem c9_witness :
    select_input_device { defaultInput := some { name := "d0" }, inputs := [{ name := "mic1" }] }
        "Default" =
      (Host.mk (some { name := "d0" }) [{ name := "mic1" }]).defaultInput ∧
      (∀ dev,
        select_input_device
            { defaultInput := some { name := "d0" }, inputs := [{ name := "mic1" }] } "mic1" =
          some dev →
        dev.name = "mic1" ∧ dev ∈ (Host.mk (some { name := "d0" }) [{ name := "mic1" }]).inputs) ∧
      (select_input_device
          { defaultInput := some { name := "d0" }, inputs := [{ name := "mic1" }] } "mic1" =
        none ↔
        ∀ dev ∈ (Host.mk (some { name := "d0" }) [{ name := "mic1" }]).inputs,
          dev.name ≠ "mic1") :=
  c9_device_resolution { defaultInput := some { name := "d0" }, inputs := [{ name := "mic1" }] }
    "mic1" (by decide)

/-! ### Claim C10: cursor invariant of the excitation iterators -/

/-- C10: for both `Wave` and `Chirp`, under the invariant
`index <= samples.len()`: `next()` yields `samples[index]` and increments
the index by exactly 1 while `index < samples.len()`, returns `None`
leaving the state unchanged once `index = samples.len()` (hence `None`
forever), the new index still satisfies the invariant, and
`current_frame_len = samples.len() - index` never underflows
(`current_frame_len + index = samples.len()`). -/
theorem c10_cursor_invariant (w : Wave) (c : Chirp)
    (hw : w.index ≤ w.samples.length) (hc : c.index ≤ c.samples.length) :
    ((w.next).2.index ≤ (w.next).2.samples.length ∧
      (w.index < w.samples.length →
        w.next = (some (w.samples.getD w.index 0), { w with index := w.index + 1 })) ∧
      (w.index = w.samples.length → w.next = (none, w)) ∧
      w.current_frame_len + w.index = w.samples.length) ∧
    ((c.next).2.index ≤ (c.next).2.samples.length ∧
      (c.index < c.samples.length →
        c.next = (some (c.samples.getD c.index 0), { c with index := c.index + 1 })) ∧
      (c.index = c.samples.length → c.next = (none, c)) ∧
      c.current_frame_len + c.index = c.samples.length) := by
  constructor
  · refine ⟨?_, ?_, ?_, ?_⟩
    · by_cases h : w.index < w.samples.length
      · simp only [Wave.next, if_pos h]
        omega
      · simp only [Wave.next, if_neg h]
        exact hw
    · intro h
      simp only [Wave.next, if_pos h]
    · intro h
      rw [Wave.next, if_neg (by omega)]
    · simp only [Wave.current_frame_len]
      omega
  · refine ⟨?_, ?_, ?_, ?_⟩
    · by_cases h : c.index < c.samples.length
      · simp only [Chirp.next, if_pos h]
        omega
      · simp only [Chirp.next, if_neg h]
        exact hc
    · intro h
      simp only [Chirp.next, if_pos h]
    · intro h
      rw [Chirp.next, if_neg (by omega)]
    · simp only [Chirp.current_frame_len]
      omega

/-- C10 witness: the cursor invariant on a concrete one-sample wave and
chirp with the cursor at 0. -/
theorem c10_witness :
    (((Wave.mk [0.5] 1 1 0 1).next).2.index ≤ ((Wave.mk [0.5] 1 1 0 1).next).2.samples.length ∧
      ((Wave.mk [0.5] 1 1 0 1).index < (Wave.mk [0.5] 1 1 0 1).samples.length →
        (Wave.mk [0.5] 1 1 0 1).next =
          (some ((Wave.mk [0.5] 1 1 0 1).samples.getD (Wave.mk [0.5] 1 1 0 1).index 0),
            { Wave.mk [0.5] 1 1 0 1 with index := (Wave.mk [0.5] 1 1 0 1).index + 1 })) ∧
      ((Wave.mk [0.5] 1 1 0 1).index = (Wave.mk [0.5] 1 1 0 1).samples.length →
        (Wave.mk [0.5] 1 1 0 1).next = (none, Wave.mk [0.5] 1 1 0 1)) ∧
      (Wave.mk [0.5] 1 1 0 1).current_frame_len + (Wave.mk [0.5] 1 1 0 1).index =
        (Wave.mk [0.5] 1 1 0 1).samples.length) ∧
    (((Chirp.mk 100 1000 1 1 0 [0.5]).next).2.index ≤
        ((Chirp.mk 100 1000 1 1 0 [0.5]).next).2.samples.length ∧
      ((Chirp.mk 100 1000 1 1 0 [0.5]).index < (Chirp.mk 100 1000 1 1 0 [0.5]).samples.length →
        (Chirp.mk 100 1000 1 1 0 [0.5]).next =
          (some ((Chirp.mk 100 1000 1 1 0 [0.5]).samples.getD
              (Chirp.mk 100 1000 1 1 0 [0.5]).index 0),
            { Chirp.mk 100 1000 1 1 0 [0.5] with
                index := (Chirp.mk 100 1000 1 1 0 [0.5]).index + 1 })) ∧
      ((Chirp.mk 100 1000 1 1 0 [0.5]).index = (Chirp.mk 100 1000 1 1 0 [0.5]).samples.length →
        (Chirp.mk 100 1000 1 1 0 [0.5]).next = (none, Chirp.mk 100 1000 1 1 0 [0.5])) ∧
      (Chirp.mk 100 1000 1 1 0 [0.5]).current_frame_len + (Chirp.mk 100 1000 1 1 0 [0.5]).index =
        (Chirp.mk 100 1000 1 1 0 [0.5]).samples.length) :=
  c10_cursor_invariant (Wave.mk [0.5] 1 1 0 1) (Chirp.mk 100 1000 1 1 0 [0.5])
    (by simp) (by simp)

end Calliber
